import Mathlib

/-!
# Verification of the lottery-bet client (distro-tp0)

A shallow embedding of the Go client (`client/common/protocol.go`,
`client/common/client.go`, and the batch serializer) in Lean 4, with
theorems settling the specification's claims about framing, batching,
pacing, error handling and field construction.

Strings are modelled as `List Char` (Go iterates strings by rune; a Go
rune is a Unicode code point, as is a Lean `Char`).  The CSV record
source is modelled as a list of raw field tuples; the network is
modelled by an oracle telling each batch-send attempt whether it
succeeds, and each `Write` call its partial count or error.
-/

/-- Wire/domain strings: Go strings iterated by rune. -/
abbrev Str := List Char

/-! ## FrameCodec: `escape` (protocol.go, `func (Protocol) escape`)

The Go loop appends a backslash before every backslash or hash rune and
passes every other rune through. -/

/-- Embeds `Protocol.escape`: insert the escape byte before every
occurrence of the escape byte or the delimiter. -/
def escape : Str → Str
  | [] => []
  | r :: rest =>
    if r = '\\' ∨ r = '#' then '\\' :: r :: escape rest
    else r :: escape rest

/-- Modelled from the spec: the repository contains only the client-side
`escape`; the matching `unescape` lives in the out-of-scope server.  The
spec describes it as the left inverse of `escape`: on the escape byte,
drop it and take the next character literally; otherwise pass the
character through. -/
def unescape : Str → Str
  | [] => []
  | r :: rest =>
    if r = '\\' then
      match rest with
      | [] => []
      | d :: rest2 => d :: unescape rest2
    else r :: unescape rest

/-- Claim C2 — For every string `s`, `unescape (escape s) = s`: `escape`
inserts the escape byte before every `\` or `#` and passes everything
else through, and `unescape` is the matching left inverse. -/
theorem unescape_escape (s : Str) : unescape (escape s) = s := by
  induction s with
  | nil => rfl
  | cons r rest ih =>
    by_cases h : r = '\\' ∨ r = '#'
    · have hr : escape (r :: rest) = '\\' :: r :: escape rest := by
        simp [escape, h]
      have hu : unescape ('\\' :: r :: escape rest) = r :: unescape (escape rest) := rfl
      rw [hr, hu, ih]
    · have hr : escape (r :: rest) = r :: escape rest := by
        simp [escape, h]
      have hne : r ≠ '\\' := fun hc => h (Or.inl hc)
      have hu : unescape (r :: escape rest) = r :: unescape (escape rest) := by
        rw [unescape.eq_def]
        simp [hne]
      rw [hr, hu, ih]

/-! ## Data model (protocol.go, `type Bet struct`) -/

/-- Embeds the `Bet` struct: six opaque string fields. -/
structure Bet where
  Agency    : Str
  FirstName : Str
  LastName  : Str
  Document  : Str
  Birthdate : Str
  Number    : Str
deriving DecidableEq, Repr

/-- Decimal rendering of a count, as Go's `fmt.Sprintf` verb `%d`
produces for a non-negative `int`. -/
def natChars (n : Nat) : Str := Nat.toDigits 10 n

/-- Embeds `Protocol.SerializeBet`:
`BET#agency#first#last#document#birthdate#number\n`, every field
escaped. -/
def SerializeBet (b : Bet) : Str :=
  "BET#".data ++ escape b.Agency ++ "#".data ++ escape b.FirstName ++ "#".data ++
    escape b.LastName ++ "#".data ++ escape b.Document ++ "#".data ++
    escape b.Birthdate ++ "#".data ++ escape b.Number ++ "\n".data

/-- Embeds `Protocol.SerializeBatch`: the empty slice yields the empty
string; otherwise a `BATCH#<count>\n` header followed by one
`SerializeBet` line per bet, in order. -/
def SerializeBatch (bets : List Bet) : Str :=
  if bets.length = 0 then []
  else "BATCH#".data ++ natChars bets.length ++ "\n".data ++
    (bets.map SerializeBet).flatten

/-- Embeds `Protocol.SerializeFinishBets`: `FINISH_BETS#<agency>\n`. -/
def SerializeFinishBets (agency : Str) : Str :=
  "FINISH_BETS#".data ++ escape agency ++ "\n".data

/-- Embeds `Protocol.SerializeQueryWinners`: `QUERY_WINNERS#<agency>\n`. -/
def SerializeQueryWinners (agency : Str) : Str :=
  "QUERY_WINNERS#".data ++ escape agency ++ "\n".data

/-! ## Record parsing (client.go, `readNextBatch`)

`strings.Split(s, " ")` and `strings.Join(parts, " ")`, embedded over
`List Char` with Go's semantics for a one-character separator. -/

/-- Embeds Go's `strings.Split(s, " ")`: the subsequences of `s`
between occurrences of the space character; never returns the empty
list. -/
def splitSp : Str → List Str
  | [] => [[]]
  | c :: rest =>
    if c = ' ' then [] :: splitSp rest
    else
      match splitSp rest with
      | [] => [[c]]
      | w :: ws => (c :: w) :: ws

/-- Embeds Go's `strings.Join(parts, " ")`. -/
def joinSp : List Str → Str
  | [] => []
  | [w] => w
  | w :: ws => w ++ ' ' :: joinSp ws

/-- Embeds the `Bet` construction in `readNextBatch` (client.go): the
agency is the configured client ID; `FirstName` is
`strings.Split(record[0], " ")[0]`; `LastName` is
`strings.Join(strings.Split(record[0], " ")[1:], " ") + " " + record[1]`;
the remaining fields are columns 2–4. -/
def mkBet (id : Str) (record : List Str) : Bet :=
  { Agency    := id
    FirstName := (splitSp (record.getD 0 [])).headD []
    LastName  := joinSp (splitSp (record.getD 0 [])).tail ++ ' ' :: record.getD 1 []
    Document  := record.getD 2 []
    Birthdate := record.getD 3 []
    Number    := record.getD 4 [] }

theorem splitSp_ne_nil (s : Str) : splitSp s ≠ [] := by
  cases s with
  | nil => simp [splitSp]
  | cons c rest =>
    rw [splitSp.eq_def]
    by_cases h : c = ' '
    · simp [h]
    · simp only [h, if_false]
      cases splitSp rest <;> simp

/-- A string without a space splits into the single word that is the
string itself. -/
theorem splitSp_no_space (s : Str) (h : ' ' ∉ s) : splitSp s = [s] := by
  induction s with
  | nil => rfl
  | cons c rest ih =>
    have hc : c ≠ ' ' := fun hcc => h (hcc ▸ List.mem_cons_self c rest)
    have hrest : ' ' ∉ rest := fun hm => h (List.mem_cons_of_mem c hm)
    rw [splitSp.eq_def]
    simp only [hc, if_false]
    rw [ih hrest]

/-! ## Batch reading (client.go, `readNextBatch`)

The streaming CSV reader is modelled as a list of raw records (field
tuples); reading returns the next batch together with the reader's
remaining state.  Go's `batchSize` is an `int`, so it is carried as an
`Int` (it may be zero or negative); `k` is `len(batch)`, the number of
bets collected so far. -/

/-- Embeds `readNextBatch`: while `len(batch) < batchSize`, read a
record; stop at end of input; skip records that do not have exactly 5
fields; otherwise construct a bet and continue.  Returns the batch and
the unconsumed remainder of the input. -/
def readNextBatch (id : Str) (batchSize : Int) :
    Nat → List (List Str) → List Bet × List (List Str)
  | _, [] => ([], [])
  | k, r :: rest =>
    if (k : Int) < batchSize then
      if r.length = 5 then
        let p := readNextBatch id batchSize (k + 1) rest
        (mkBet id r :: p.1, p.2)
      else readNextBatch id batchSize k rest
    else ([], r :: rest)

theorem readNextBatch_rest_le (id : Str) (m : Int) :
    ∀ (k : Nat) (recs : List (List Str)),
      (readNextBatch id m k recs).2.length ≤ recs.length := by
  intro k recs
  induction recs generalizing k with
  | nil => simp [readNextBatch]
  | cons r rest ih =>
    rw [readNextBatch.eq_def]
    by_cases hk : (k : Int) < m
    · by_cases hr : r.length = 5
      · simpa [hk, hr] using Nat.le_succ_of_le (ih (k + 1))
      · simpa [hk, hr] using Nat.le_succ_of_le (ih k)
    · simp [hk]

theorem readNextBatch_rest_lt (id : Str) (m : Int) :
    ∀ (k : Nat) (recs : List (List Str)),
      (readNextBatch id m k recs).1 ≠ [] →
      (readNextBatch id m k recs).2.length < recs.length := by
  intro k recs
  induction recs generalizing k with
  | nil => simp [readNextBatch]
  | cons r rest ih =>
    intro hne
    rw [readNextBatch.eq_def] at hne ⊢
    by_cases hk : (k : Int) < m
    · by_cases hr : r.length = 5
      · simpa [hk, hr] using
          Nat.lt_succ_of_le (readNextBatch_rest_le id m (k + 1) rest)
      · simp only [hk, if_true, hr, if_false] at hne ⊢
        exact Nat.lt_succ_of_lt (ih k hne)
    · simp [hk] at hne

/-! ## The batch-streaming client loop (client.go, `StartClientLoop`)

The loop repeatedly reads a batch, stops when it is empty, sends it
through a fresh connection (`sendBatch`), and sleeps the configured
period exactly when `len(batch) == batchSize`.  `sendBatch` never reads
a response (`receiveResponse` exists in the source but is never
called), so the observable behaviour is the trace of successful batch
transmissions and pacing sleeps.  The network is an oracle `env`
telling each `sendBatch` attempt (connect + write) whether it
succeeds. -/

/-- One observable event of a client session. -/
inductive Ev
  /-- A batch was fully transmitted over the wire. -/
  | send (batch : List Bet)
  /-- The pacing sleep ran. -/
  | sleep
  /-- A response line was read from the aggregator. -/
  | recv (line : Str)
deriving DecidableEq, Repr

/-- How the batch loop ended. -/
inductive Outcome
  /-- The loop broke on an empty batch and logged `loop_finished`. -/
  | finished
  /-- A `sendBatch` attempt failed and the loop returned early. -/
  | sendFailed
deriving DecidableEq, Repr

/-- Embeds the loop body of `StartClientLoop` (batch variant): read the
next batch, break when it is empty, send it (abort on failure), then
sleep iff the batch is full-size; `attempt` numbers the `sendBatch`
calls for the network oracle. -/
def clientLoop (id : Str) (m : Int) (env : Nat → Bool) :
    Nat → List (List Str) → List Ev × Outcome
  | attempt, recs =>
    let p := readNextBatch id m 0 recs
    if h : p.1 = [] then ([], Outcome.finished)
    else if env attempt then
      let t := clientLoop id m env (attempt + 1) p.2
      (Ev.send p.1 :: ((if (p.1.length : Int) = m then [Ev.sleep] else []) ++ t.1), t.2)
    else ([], Outcome.sendFailed)
termination_by _ recs => recs.length
decreasing_by exact readNextBatch_rest_lt id m 0 recs h

/-- The batches carried by the send events of a trace, in order. -/
def sentBatches (tr : List Ev) : List (List Bet) :=
  tr.filterMap fun e =>
    match e with
    | Ev.send b => some b
    | _ => none

/-- Whether an event is a read of an aggregator response. -/
def isRecv : Ev → Bool
  | Ev.recv _ => true
  | _ => false

/-! ## A pure view of the partition

`chunksPure m l` is the mathematical partition of `l` into consecutive
chunks of size `m` (last one possibly smaller); the loop's batches are
proved equal to it.  `chunksAll` iterates `readNextBatch` the way the
loop does, independently of the network. -/

/-- Consecutive chunks of size `m`; the last may be smaller. -/
def chunksPure (m : Nat) : List α → List (List α)
  | [] => []
  | a :: l =>
    if m = 0 then []
    else (a :: l).take m :: chunksPure m ((a :: l).drop m)
termination_by l => l.length
decreasing_by simp [List.length_drop]; omega

theorem chunksPure_flatten (m : Nat) (hm : 0 < m) (l : List α) :
    (chunksPure m l).flatten = l := by
  induction l using chunksPure.induct m with
  | case1 => simp [chunksPure]
  | case2 a l h => omega
  | case3 a l h ih =>
    rw [chunksPure.eq_def]
    simp only [h, if_false]
    simp [ih, List.take_append_drop]

theorem chunksPure_eq_nil_iff (m : Nat) (hm : 0 < m) (l : List α) :
    chunksPure m l = [] ↔ l = [] := by
  cases l with
  | nil => simp [chunksPure]
  | cons a t =>
    rw [chunksPure.eq_def]
    simp [Nat.pos_iff_ne_zero.mp hm]

theorem chunksPure_length (m : Nat) (hm : 0 < m) (l : List α) :
    (chunksPure m l).length = (l.length + m - 1) / m := by
  induction l using chunksPure.induct m with
  | case1 =>
    have : (m - 1) / m = 0 := Nat.div_eq_of_lt (by omega)
    simp [chunksPure, this]
  | case2 a l h => omega
  | case3 a l h ih =>
    rw [chunksPure.eq_def]
    simp only [h, if_false, List.length_cons, List.length_drop] at ih ⊢
    rw [ih]
    rcases le_or_lt (l.length + 1) m with hle | hlt
    · have h1 : l.length + 1 - m = 0 := by omega
      have h2 : (m - 1) / m = 0 := Nat.div_eq_of_lt (by omega)
      have h3 : l.length + 1 + m - 1 = l.length + m := by omega
      have h4 : l.length + m = l.length + m := rfl
      have h5 : (l.length + m) / m = l.length / m + 1 := Nat.add_div_right _ hm
      have h6 : l.length / m = 0 := Nat.div_eq_of_lt (by omega)
      rw [h1, h3, h5, h6]
      simp [h2]
    · have h1 : l.length + 1 - m + m - 1 = l.length := by omega
      have h2 : l.length + 1 + m - 1 = l.length + m := by omega
      rw [h1, h2, Nat.add_div_right _ hm]

theorem chunksPure_sizes (m : Nat) (hm : 0 < m) (l : List α) :
    ∀ c ∈ chunksPure m l, c.length ≤ m ∧ c ≠ [] := by
  induction l using chunksPure.induct m with
  | case1 => simp [chunksPure]
  | case2 a l h => omega
  | case3 a l h ih =>
    rw [chunksPure.eq_def]
    simp only [h, if_false]
    intro c hc
    rcases List.mem_cons.mp hc with rfl | hmem
    · constructor
      · simp [List.length_take]
      · have : (a :: l).take m ≠ [] := by
          cases m with
          | zero => omega
          | succ m0 => simp [List.take_succ_cons]
        exact this
    · exact ih c hmem

theorem chunksPure_dropLast_sizes (m : Nat) (hm : 0 < m) (l : List α) :
    ∀ c ∈ (chunksPure m l).dropLast, c.length = m := by
  induction l using chunksPure.induct m with
  | case1 => simp [chunksPure]
  | case2 a l h => omega
  | case3 a l h ih =>
    rw [chunksPure.eq_def]
    simp only [h, if_false]
    rcases hrest : chunksPure m ((a :: l).drop m) with _ | ⟨c0, cs⟩
    · simp
    · intro c hc
      have hdrop : (a :: l).drop m ≠ [] := by
        intro hd
        rw [hd] at hrest
        simp [chunksPure] at hrest
      have hlen : m ≤ (a :: l).length := by
        by_contra hcon
        push_neg at hcon
        exact hdrop (List.drop_eq_nil_of_le (Nat.le_of_lt hcon))
      rw [List.dropLast_cons_of_ne_nil (by simp : (c0 :: cs) ≠ [])] at hc
      rcases List.mem_cons.mp hc with rfl | hmem
      · simp only [List.length_take, List.length_cons] at hlen ⊢
        omega
      · rw [← hrest] at hmem
        exact ih c hmem

/-! ## Characterizing `readNextBatch` -/

/-- With a non-positive `batchSize` the read loop body never runs: the
batch is empty and nothing is consumed. -/
theorem readNextBatch_nonpos (id : Str) (m : Int) (hm : m ≤ 0)
    (recs : List (List Str)) : readNextBatch id m 0 recs = ([], recs) := by
  cases recs with
  | nil => rfl
  | cons r rest =>
    have hk : ¬ ((0 : Int) < m) := by omega
    rw [readNextBatch.eq_def]
    simp [hk]

/-- Every bet a read batch holds was built by `mkBet` with the
configured client ID as its agency. -/
theorem readNextBatch_agency (id : Str) (m : Int) :
    ∀ (k : Nat) (recs : List (List Str)) (b : Bet),
      b ∈ (readNextBatch id m k recs).1 → b.Agency = id := by
  intro k recs
  induction recs generalizing k with
  | nil => simp [readNextBatch]
  | cons r rest ih =>
    intro b hb
    rw [readNextBatch.eq_def] at hb
    by_cases hk : (k : Int) < m
    · by_cases hr : r.length = 5
      · simp only [hk, if_true, hr, if_true] at hb
        rcases List.mem_cons.mp hb with rfl | hmem
        · rfl
        · exact ih (k + 1) b hmem
      · simp only [hk, if_true, hr, if_false] at hb
        exact ih k b hb
    · simp [hk] at hb

/-- On a run of well-formed records, reading collects the next
`batchSize - k` records (mapped through `mkBet`) and leaves the
rest. -/
theorem readNextBatch_allOk (id : Str) (mN : Nat) :
    ∀ (k : Nat) (recs : List (List Str)), (∀ r ∈ recs, r.length = 5) →
      readNextBatch id (mN : Int) k recs =
        ((recs.take (mN - k)).map (mkBet id), recs.drop (mN - k)) := by
  intro k recs
  induction recs generalizing k with
  | nil => simp [readNextBatch]
  | cons r rest ih =>
    intro h5
    have hr : r.length = 5 := h5 r (List.mem_cons_self r rest)
    have hrest : ∀ x ∈ rest, x.length = 5 := fun x hx => h5 x (List.mem_cons_of_mem r hx)
    by_cases hk : k < mN
    · have hki : (k : Int) < (mN : Int) := by exact_mod_cast hk
      have hsub : mN - k = (mN - (k + 1)) + 1 := by omega
      rw [readNextBatch.eq_def]
      simp only [hki, if_true, hr, if_true]
      rw [ih (k + 1) hrest, hsub]
      simp
    · have hki : ¬ ((k : Int) < (mN : Int)) := by exact_mod_cast hk
      have hsub : mN - k = 0 := by omega
      rw [readNextBatch.eq_def]
      simp [hki, hsub]

/-! ## The loop's partition, independent of the network -/

/-- The sequence of batches `StartClientLoop` reads: iterate
`readNextBatch` until it returns an empty batch. -/
def chunksAll (id : Str) (m : Int) : List (List Str) → List (List Bet)
  | recs =>
    let p := readNextBatch id m 0 recs
    if h : p.1 = [] then [] else p.1 :: chunksAll id m p.2
termination_by recs => recs.length
decreasing_by exact readNextBatch_rest_lt id m 0 recs h

theorem chunksAll_allOk_aux (id : Str) (mN : Nat) (hm : 0 < mN) :
    ∀ (n : Nat) (recs : List (List Str)), recs.length ≤ n →
      (∀ r ∈ recs, r.length = 5) →
      chunksAll id (mN : Int) recs = chunksPure mN (recs.map (mkBet id)) := by
  intro n
  induction n with
  | zero =>
    intro recs hlen _
    have : recs = [] := List.length_eq_zero.mp (Nat.le_zero.mp hlen)
    subst this
    rw [chunksAll.eq_def]
    simp [readNextBatch, chunksPure]
  | succ n ih =>
    intro recs hlen h5
    rcases recs with _ | ⟨a, t⟩
    · rw [chunksAll.eq_def]
      simp [readNextBatch, chunksPure]
    · have hread := readNextBatch_allOk id mN 0 (a :: t) h5
      simp only [Nat.sub_zero] at hread
      have htake : (a :: t).take mN ≠ [] := by
        rcases mN with _ | m0
        · omega
        · simp [List.take_succ_cons]
      have hmne : mN ≠ 0 := by omega
      have hne : ((a :: t).take mN).map (mkBet id) ≠ [] := by
        simp only [ne_eq, List.map_eq_nil_iff]
        exact htake
      rw [chunksAll.eq_def]
      simp only [hread]
      rw [dif_neg hne]
      have hdroplen : ((a :: t).drop mN).length ≤ n := by
        simp only [List.length_drop, List.length_cons] at hlen ⊢
        omega
      have hdrop5 : ∀ x ∈ (a :: t).drop mN, x.length = 5 := fun x hx =>
        h5 x (List.mem_of_mem_drop hx)
      rw [ih ((a :: t).drop mN) hdroplen hdrop5]
      have hrhs : chunksPure mN ((a :: t).map (mkBet id)) =
          ((a :: t).map (mkBet id)).take mN ::
            chunksPure mN (((a :: t).map (mkBet id)).drop mN) := by
        rw [chunksPure.eq_def]
        simp [hmne]
      rw [hrhs, ← List.map_take, ← List.map_drop]

/-- On well-formed records the loop's partition is the pure chunking of
the bets. -/
theorem chunksAll_allOk (id : Str) (mN : Nat) (hm : 0 < mN)
    (recs : List (List Str)) (h5 : ∀ r ∈ recs, r.length = 5) :
    chunksAll id (mN : Int) recs = chunksPure mN (recs.map (mkBet id)) :=
  chunksAll_allOk_aux id mN hm recs.length recs (Nat.le_refl _) h5

/-! ## Loop traces -/

/-- The event trace the loop produces when every send succeeds: each
batch is sent, followed by the pacing sleep exactly when the batch is
full-size (`len(batch) == batchSize`). -/
def traceOf (m : Int) (cs : List (List Bet)) : List Ev :=
  (cs.map fun b =>
    Ev.send b :: if (b.length : Int) = m then [Ev.sleep] else []).flatten

theorem traceOf_nil (m : Int) : traceOf m [] = [] := rfl

theorem traceOf_cons (m : Int) (b : List Bet) (cs : List (List Bet)) :
    traceOf m (b :: cs) =
      Ev.send b :: ((if (b.length : Int) = m then [Ev.sleep] else []) ++ traceOf m cs) := by
  simp [traceOf]

theorem sentBatches_traceOf (m : Int) (cs : List (List Bet)) :
    sentBatches (traceOf m cs) = cs := by
  induction cs with
  | nil => rfl
  | cons b cs ih =>
    rw [traceOf_cons]
    by_cases hb : (b.length : Int) = m <;> simp [sentBatches, hb] <;>
      simpa [sentBatches] using ih

theorem clientLoop_true_aux (id : Str) (m : Int) :
    ∀ (n : Nat) (recs : List (List Str)) (a : Nat), recs.length ≤ n →
      clientLoop id m (fun _ => true) a recs =
        (traceOf m (chunksAll id m recs), Outcome.finished) := by
  intro n
  induction n with
  | zero =>
    intro recs a hlen
    have : recs = [] := List.length_eq_zero.mp (Nat.le_zero.mp hlen)
    subst this
    rw [clientLoop.eq_def, chunksAll.eq_def]
    simp [readNextBatch, traceOf]
  | succ n ih =>
    intro recs a hlen
    by_cases hp : (readNextBatch id m 0 recs).1 = []
    · rw [clientLoop.eq_def, chunksAll.eq_def]
      simp [hp, traceOf]
    · have hlt := readNextBatch_rest_lt id m 0 recs hp
      have hrest : (readNextBatch id m 0 recs).2.length ≤ n := by omega
      rw [clientLoop.eq_def, chunksAll.eq_def]
      simp only [dif_neg hp]
      rw [ih _ (a + 1) hrest, traceOf_cons]
      simp

/-- When every `sendBatch` attempt succeeds, the loop transmits exactly
the partition `chunksAll` and finishes. -/
theorem clientLoop_true (id : Str) (m : Int) (a : Nat) (recs : List (List Str)) :
    clientLoop id m (fun _ => true) a recs =
      (traceOf m (chunksAll id m recs), Outcome.finished) :=
  clientLoop_true_aux id m recs.length recs a (Nat.le_refl _)

theorem clientLoop_cutoff_aux (id : Str) (m : Int) (k : Nat) :
    ∀ (n : Nat) (recs : List (List Str)) (a : Nat), recs.length ≤ n →
      clientLoop id m (fun j => decide (j < k)) a recs =
        (traceOf m ((chunksAll id m recs).take (k - a)),
         if (chunksAll id m recs).length ≤ k - a then Outcome.finished
         else Outcome.sendFailed) := by
  intro n
  induction n with
  | zero =>
    intro recs a hlen
    have : recs = [] := List.length_eq_zero.mp (Nat.le_zero.mp hlen)
    subst this
    rw [clientLoop.eq_def, chunksAll.eq_def]
    simp [readNextBatch, traceOf]
  | succ n ih =>
    intro recs a hlen
    by_cases hp : (readNextBatch id m 0 recs).1 = []
    · rw [clientLoop.eq_def, chunksAll.eq_def]
      simp [hp, traceOf]
    · have hlt := readNextBatch_rest_lt id m 0 recs hp
      have hrest : (readNextBatch id m 0 recs).2.length ≤ n := by omega
      rw [clientLoop.eq_def, chunksAll.eq_def]
      simp only [dif_neg hp]
      by_cases ha : a < k
      · have henv : decide (a < k) = true := by simp [ha]
        have hsub : k - a = (k - (a + 1)) + 1 := by omega
        simp only [henv, if_true]
        rw [ih _ (a + 1) hrest]
        rw [hsub, List.take_succ_cons, traceOf_cons]
        simp only [List.length_cons, Nat.add_le_add_iff_right]
      · have henv : decide (a < k) = false := by simp [ha]
        have hsub : k - a = 0 := by omega
        have hlen1 : ¬ (((readNextBatch id m 0 recs).1 ::
            chunksAll id m (readNextBatch id m 0 recs).2).length ≤ k - a) := by
          simp only [List.length_cons]
          omega
        simp [henv, hsub, hlen1, traceOf]

/-- With a network that accepts the first `k` `sendBatch` attempts and
fails the next, the loop transmits exactly the first `k` envelopes and
returns early unless there were at most `k` to send. -/
theorem clientLoop_cutoff (id : Str) (m : Int) (k : Nat) (recs : List (List Str)) :
    clientLoop id m (fun j => decide (j < k)) 0 recs =
      (traceOf m ((chunksAll id m recs).take k),
       if (chunksAll id m recs).length ≤ k then Outcome.finished
       else Outcome.sendFailed) := by
  simpa using clientLoop_cutoff_aux id m k recs.length recs 0 (Nat.le_refl _)

theorem clientLoop_no_recv_aux (id : Str) (m : Int) (env : Nat → Bool) :
    ∀ (n : Nat) (recs : List (List Str)) (a : Nat), recs.length ≤ n →
      ∀ e ∈ (clientLoop id m env a recs).1, isRecv e = false := by
  intro n
  induction n with
  | zero =>
    intro recs a hlen
    have : recs = [] := List.length_eq_zero.mp (Nat.le_zero.mp hlen)
    subst this
    rw [clientLoop.eq_def]
    simp [readNextBatch]
  | succ n ih =>
    intro recs a hlen e he
    rw [clientLoop.eq_def] at he
    by_cases hp : (readNextBatch id m 0 recs).1 = []
    · simp [hp] at he
    · have hlt := readNextBatch_rest_lt id m 0 recs hp
      have hrest : (readNextBatch id m 0 recs).2.length ≤ n := by omega
      simp only [dif_neg hp] at he
      by_cases henv : env a
      · simp only [henv, if_true, List.mem_cons, List.mem_append] at he
        rcases he with rfl | he
        · rfl
        rcases he with hpace | he
        · by_cases hb : ((readNextBatch id m 0 recs).1.length : Int) = m
          · simp [hb] at hpace
            subst hpace
            rfl
          · simp [hb] at hpace
        · exact ih _ (a + 1) hrest e he
      · simp [henv] at he

/-- The batch loop never reads from the connection: no event of any run
is a receive, whatever the network does. -/
theorem clientLoop_no_recv (id : Str) (m : Int) (env : Nat → Bool) (a : Nat)
    (recs : List (List Str)) :
    ∀ e ∈ (clientLoop id m env a recs).1, isRecv e = false :=
  clientLoop_no_recv_aux id m env recs.length recs a (Nat.le_refl _)

theorem clientLoop_send_ne_nil_aux (id : Str) (m : Int) (env : Nat → Bool) :
    ∀ (n : Nat) (recs : List (List Str)) (a : Nat), recs.length ≤ n →
      Ev.send [] ∉ (clientLoop id m env a recs).1 := by
  intro n
  induction n with
  | zero =>
    intro recs a hlen
    have : recs = [] := List.length_eq_zero.mp (Nat.le_zero.mp hlen)
    subst this
    rw [clientLoop.eq_def]
    simp [readNextBatch]
  | succ n ih =>
    intro recs a hlen he
    rw [clientLoop.eq_def] at he
    by_cases hp : (readNextBatch id m 0 recs).1 = []
    · simp [hp] at he
    · have hlt := readNextBatch_rest_lt id m 0 recs hp
      have hrest : (readNextBatch id m 0 recs).2.length ≤ n := by omega
      simp only [dif_neg hp] at he
      by_cases henv : env a
      · simp only [henv, if_true, List.mem_cons, List.mem_append] at he
        rcases he with hsend | he
        · exact hp (Ev.send.inj hsend).symm
        rcases he with hpace | he
        · by_cases hb : ((readNextBatch id m 0 recs).1.length : Int) = m <;>
            simp [hb] at hpace
        · exact ih _ (a + 1) hrest he
      · simp [henv] at he

/-- The loop never transmits an empty batch. -/
theorem clientLoop_send_ne_nil (id : Str) (m : Int) (env : Nat → Bool) (a : Nat)
    (recs : List (List Str)) : Ev.send [] ∉ (clientLoop id m env a recs).1 :=
  clientLoop_send_ne_nil_aux id m env recs.length recs a (Nat.le_refl _)

theorem clientLoop_agency_aux (id : Str) (m : Int) (env : Nat → Bool) :
    ∀ (n : Nat) (recs : List (List Str)) (a : Nat), recs.length ≤ n →
      ∀ batch ∈ sentBatches (clientLoop id m env a recs).1,
        ∀ b ∈ batch, b.Agency = id := by
  intro n
  induction n with
  | zero =>
    intro recs a hlen
    have : recs = [] := List.length_eq_zero.mp (Nat.le_zero.mp hlen)
    subst this
    rw [clientLoop.eq_def]
    simp [readNextBatch, sentBatches]
  | succ n ih =>
    intro recs a hlen batch hbatch b hb
    rw [clientLoop.eq_def] at hbatch
    by_cases hp : (readNextBatch id m 0 recs).1 = []
    · simp [hp, sentBatches] at hbatch
    · have hlt := readNextBatch_rest_lt id m 0 recs hp
      have hrest : (readNextBatch id m 0 recs).2.length ≤ n := by omega
      simp only [dif_neg hp] at hbatch
      by_cases henv : env a
      · simp only [henv, if_true] at hbatch
        rw [sentBatches] at hbatch
        simp only [List.filterMap_cons, List.filterMap_append] at hbatch
        by_cases hbm : ((readNextBatch id m 0 recs).1.length : Int) = m
        · simp only [hbm, if_true, List.mem_cons, List.mem_append] at hbatch
          rcases hbatch with rfl | hbatch
          · exact readNextBatch_agency id m 0 recs b hb
          · rcases hbatch with hpace | hbatch
            · simp [List.filterMap] at hpace
            · exact ih _ (a + 1) hrest batch hbatch b hb
        · simp only [hbm, if_false, List.mem_cons, List.mem_append] at hbatch
          rcases hbatch with rfl | hbatch
          · exact readNextBatch_agency id m 0 recs b hb
          · rcases hbatch with hpace | hbatch
            · simp [List.filterMap] at hpace
            · exact ih _ (a + 1) hrest batch hbatch b hb
      · simp [henv, sentBatches] at hbatch

/-- Every bet in every batch any run transmits carries the configured
client ID as its agency. -/
theorem clientLoop_agency (id : Str) (m : Int) (env : Nat → Bool) (a : Nat)
    (recs : List (List Str)) :
    ∀ batch ∈ sentBatches (clientLoop id m env a recs).1, ∀ b ∈ batch,
      b.Agency = id :=
  clientLoop_agency_aux id m env recs.length recs a (Nat.le_refl _)

/-! ## Skipping malformed records -/

/-- Once the batch is full (`¬ len(batch) < batchSize`), reading
returns it and consumes nothing. -/
theorem readNextBatch_stop (id : Str) (m : Int) (k : Nat)
    (hk : ¬ ((k : Int) < m)) (recs : List (List Str)) :
    readNextBatch id m k recs = ([], recs) := by
  cases recs with
  | nil => rfl
  | cons r rest =>
    rw [readNextBatch.eq_def]
    simp [hk]

/-- Reading from the input with its wrong-arity rows removed yields the
same batch, and the same remainder up to that removal. -/
theorem readNextBatch_skip (id : Str) (m : Int) :
    ∀ (k : Nat) (recs : List (List Str)),
      readNextBatch id m k (recs.filter fun r => decide (r.length = 5)) =
        ((readNextBatch id m k recs).1,
         (readNextBatch id m k recs).2.filter fun r => decide (r.length = 5)) := by
  intro k recs
  induction recs generalizing k with
  | nil => simp [readNextBatch]
  | cons r rest ih =>
    by_cases hr : r.length = 5
    · have hf : (r :: rest).filter (fun r => decide (r.length = 5)) =
          r :: rest.filter fun r => decide (r.length = 5) := by
        simp [List.filter_cons, hr]
      rw [hf]
      by_cases hk : (k : Int) < m
      · rw [readNextBatch.eq_def]
        simp only [hk, if_true, hr, if_true]
        rw [ih (k + 1)]
        conv_rhs => rw [readNextBatch.eq_def]
        simp [hk, hr]
      · rw [readNextBatch_stop id m k hk, readNextBatch_stop id m k hk, hf]
    · have hf : (r :: rest).filter (fun r => decide (r.length = 5)) =
          rest.filter fun r => decide (r.length = 5) := by
        simp [List.filter_cons, hr]
      rw [hf]
      by_cases hk : (k : Int) < m
      · rw [ih k]
        conv_rhs => rw [readNextBatch.eq_def]
        simp [hk, hr]
      · rw [readNextBatch_stop id m k hk, readNextBatch_stop id m k hk, hf]

theorem clientLoop_skip_aux (id : Str) (m : Int) (env : Nat → Bool) :
    ∀ (n : Nat) (recs : List (List Str)) (a : Nat), recs.length ≤ n →
      clientLoop id m env a (recs.filter fun r => decide (r.length = 5)) =
        clientLoop id m env a recs := by
  intro n
  induction n with
  | zero =>
    intro recs a hlen
    have : recs = [] := List.length_eq_zero.mp (Nat.le_zero.mp hlen)
    subst this
    rfl
  | succ n ih =>
    intro recs a hlen
    rw [clientLoop.eq_def, clientLoop.eq_def]
    by_cases hp : (readNextBatch id m 0 recs).1 = []
    · simp [readNextBatch_skip id m 0 recs, hp]
    · have hlt := readNextBatch_rest_lt id m 0 recs hp
      have hrest : (readNextBatch id m 0 recs).2.length ≤ n := by omega
      simp only [readNextBatch_skip id m 0 recs, dif_neg hp]
      rw [ih _ (a + 1) hrest]

/-- Removing the wrong-arity rows from the input does not change the
session at all: same events, same outcome. -/
theorem clientLoop_skip (id : Str) (m : Int) (env : Nat → Bool) (a : Nat)
    (recs : List (List Str)) :
    clientLoop id m env a (recs.filter fun r => decide (r.length = 5)) =
      clientLoop id m env a recs :=
  clientLoop_skip_aux id m env recs.length recs a (Nat.le_refl _)

/-! ## Socket transmission (client.go, the write loops of `sendBatch`
and of the per-bet `StartClientLoop` variant)

Both loops are the same code: starting from `totalWritten = 0`, while
`totalWritten < len(messageBytes)` call `conn.Write` on the remaining
slice; on error return it at once; otherwise add the partial count and
continue.  The connection is an oracle: a list of outcomes, one per
`Write` call. -/

/-- One outcome of a `conn.Write` call: a partial count, or an error. -/
inductive WriteRes
  | ok (n : Nat)
  | fail
deriving DecidableEq, Repr

/-- Result of the write loop: the buffer was fully written (with the
successful partial counts, and the oracle entries never consumed), or a
`Write` failed (again with the counts written before the error and the
entries after it, which are never consumed), or the oracle ran out —
impossible on a live socket, where every `Write` returns. -/
inductive SendRes
  | complete (writes : List Nat) (unconsumed : List WriteRes)
  | ioError (writes : List Nat) (unconsumed : List WriteRes)
  | starved
deriving DecidableEq, Repr

/-- Embeds the write loop: `tw` is `totalWritten`, `len` the buffer
length. -/
def sendAll (len : Nat) : Nat → List WriteRes → SendRes
  | tw, [] =>
    if len ≤ tw then SendRes.complete [] [] else SendRes.starved
  | tw, w :: rest =>
    if len ≤ tw then SendRes.complete [] (w :: rest)
    else
      match w with
      | WriteRes.ok n =>
        match sendAll len (tw + n) rest with
        | SendRes.complete ws un => SendRes.complete (n :: ws) un
        | SendRes.ioError ws un => SendRes.ioError (n :: ws) un
        | SendRes.starved => SendRes.starved
      | WriteRes.fail => SendRes.ioError [] rest

/-- The Go `io.Writer` contract: a successful `Write` on a slice of
`len - tw` remaining bytes returns at most that many. -/
def oracleOk (len : Nat) : Nat → List WriteRes → Bool
  | _, [] => true
  | tw, WriteRes.ok n :: rest => decide (tw + n ≤ len) && oracleOk len (tw + n) rest
  | _, WriteRes.fail :: _ => true

theorem sendAll_spec_aux (len : Nat) :
    ∀ (oracle : List WriteRes) (tw : Nat), tw ≤ len →
      oracleOk len tw oracle = true →
      (∀ ws un, sendAll len tw oracle = SendRes.complete ws un →
        tw + ws.sum = len ∧ oracle = ws.map WriteRes.ok ++ un) ∧
      (∀ ws un, sendAll len tw oracle = SendRes.ioError ws un →
        tw + ws.sum < len ∧ oracle = ws.map WriteRes.ok ++ WriteRes.fail :: un) := by
  intro oracle
  induction oracle with
  | nil =>
    intro tw htw _
    constructor
    · intro ws un hs
      by_cases hc : len ≤ tw
      · rw [sendAll, if_pos hc] at hs
        cases hs
        constructor
        · simp
          omega
        · simp
      · rw [sendAll, if_neg hc] at hs
        cases hs
    · intro ws un hs
      by_cases hc : len ≤ tw
      · rw [sendAll, if_pos hc] at hs
        cases hs
      · rw [sendAll, if_neg hc] at hs
        cases hs
  | cons w rest ih =>
    intro tw htw hok
    cases w with
    | ok n =>
      rw [oracleOk] at hok
      have hn : tw + n ≤ len := of_decide_eq_true ((Bool.and_eq_true _ _).mp hok).1
      have hok2 : oracleOk len (tw + n) rest = true := ((Bool.and_eq_true _ _).mp hok).2
      by_cases hc : len ≤ tw
      · constructor
        · intro ws un hs
          rw [sendAll, if_pos hc] at hs
          cases hs
          constructor
          · simp
            omega
          · simp
        · intro ws un hs
          rw [sendAll, if_pos hc] at hs
          cases hs
      · constructor
        · intro ws un hs
          rw [sendAll, if_neg hc] at hs
          rcases hrec : sendAll len (tw + n) rest with ⟨ws0, un0⟩ | ⟨ws0, un0⟩ | _ <;>
            simp only [hrec] at hs <;> cases hs
          have h0 := (ih (tw + n) hn hok2).1 ws0 un hrec
          constructor
          · simp only [List.sum_cons]
            omega
          · simp [h0.2]
        · intro ws un hs
          rw [sendAll, if_neg hc] at hs
          rcases hrec : sendAll len (tw + n) rest with ⟨ws0, un0⟩ | ⟨ws0, un0⟩ | _ <;>
            simp only [hrec] at hs <;> cases hs
          have h0 := (ih (tw + n) hn hok2).2 ws0 un hrec
          constructor
          · simp only [List.sum_cons]
            omega
          · simp [h0.2]
    | fail =>
      by_cases hc : len ≤ tw
      · constructor
        · intro ws un hs
          rw [sendAll, if_pos hc] at hs
          cases hs
          constructor
          · simp
            omega
          · simp
        · intro ws un hs
          rw [sendAll, if_pos hc] at hs
          cases hs
      · constructor
        · intro ws un hs
          rw [sendAll, if_neg hc] at hs
          cases hs
        · intro ws un hs
          rw [sendAll, if_neg hc] at hs
          cases hs
          constructor
          · simp
            omega
          · simp

/-! ## Fixtures for concrete runs -/

/-- A well-formed five-field record. -/
def rec1 : List Str := [['a'], ['b'], ['c'], ['d'], ['e']]

/-- Embeds the `Bet` literal of the per-bet `StartClientLoop` variant
(client.go, first version): the field values come from the named
external parameters, the agency from the configured client ID. -/
def v1Bet (id firstName lastName document birthdate number : Str) : Bet :=
  { Agency    := id
    FirstName := firstName
    LastName  := lastName
    Document  := document
    Birthdate := birthdate
    Number    := number }

/-! ## The claims -/

/-- Claim C1, counterexample.  The claim says that after each envelope
the client receives and decodes the aggregator's response, and that a
non-OK response (e.g. `REJECTED:bad_document` to the second batch)
makes the session FAIL before envelope 3 is sent.  In the code
`sendBatch` never reads (`receiveResponse` is never called): on a
three-envelope run all three envelopes are sent, the trace contains no
receive event whatever the aggregator replies, and the session
finishes. -/
theorem sendBatch_no_ack_counterexample :
    clientLoop ['1'] (1 : Int) (fun _ => true) 0 [rec1, rec1, rec1] =
      ([Ev.send [mkBet ['1'] rec1], Ev.sleep, Ev.send [mkBet ['1'] rec1], Ev.sleep,
        Ev.send [mkBet ['1'] rec1], Ev.sleep], Outcome.finished) ∧
    (clientLoop ['1'] (1 : Int) (fun _ => true) 0 [rec1, rec1, rec1]).1.filter isRecv = [] := by
  constructor
  · simp [clientLoop, readNextBatch, rec1]
  · simp [clientLoop, readNextBatch, rec1, isRecv]

/-- Claim C1, amended — batch transmission is fire-and-forget: no run of
the loop ever reads a response, so aggregator replies cannot affect the
session; what is fatal is a transport failure of `sendBatch` itself:
with a network that accepts exactly the first `k` send attempts, the
loop transmits exactly the first `k` envelopes (earlier envelopes stay
delivered, later ones are never sent) and finishes iff no envelope
remained. -/
theorem sendBatch_fire_and_forget (id : Str) (m : Int) (k : Nat)
    (recs : List (List Str)) :
    (∀ (env : Nat → Bool) (a : Nat), ∀ e ∈ (clientLoop id m env a recs).1,
      isRecv e = false) ∧
    sentBatches (clientLoop id m (fun j => decide (j < k)) 0 recs).1 =
      (chunksAll id m recs).take k ∧
    ((clientLoop id m (fun j => decide (j < k)) 0 recs).2 = Outcome.finished ↔
      (chunksAll id m recs).length ≤ k) := by
  refine ⟨fun env a => clientLoop_no_recv id m env a recs, ?_, ?_⟩
  · rw [clientLoop_cutoff id m k recs]
    exact sentBatches_traceOf m _
  · rw [clientLoop_cutoff id m k recs]
    by_cases hlen : (chunksAll id m recs).length ≤ k <;> simp [hlen]

theorem sendBatch_fire_and_forget_witness :
    isRecv (Ev.send [mkBet ['1'] rec1]) = false ∧
    sentBatches (clientLoop ['1'] (1 : Int) (fun j => decide (j < 1)) 0 [rec1, rec1]).1 =
      (chunksAll ['1'] (1 : Int) [rec1, rec1]).take 1 := by
  constructor
  · exact (sendBatch_fire_and_forget ['1'] 1 1 [rec1, rec1]).1 (fun _ => true) 0
      (Ev.send [mkBet ['1'] rec1]) (by simp [clientLoop, readNextBatch, rec1])
  · exact (sendBatch_fire_and_forget ['1'] 1 1 [rec1, rec1]).2.1

/-- Claim C3 — on `n > 0` well-formed records with `max_size m > 0`, the
loop transmits exactly `⌈n/m⌉` batches, all of size `m` except possibly
the last, whose concatenation in emission order is the record sequence
(mapped to bets), and whose sizes sum to `n`. -/
theorem batching_partition (id : Str) (mN : Nat) (recs : List (List Str))
    (hm : 0 < mN) (hne : recs ≠ []) (h5 : ∀ r ∈ recs, r.length = 5) :
    (sentBatches (clientLoop id (mN : Int) (fun _ => true) 0 recs).1).length =
      (recs.length + mN - 1) / mN ∧
    (sentBatches (clientLoop id (mN : Int) (fun _ => true) 0 recs).1).flatten =
      recs.map (mkBet id) ∧
    (∀ c ∈ (sentBatches (clientLoop id (mN : Int) (fun _ => true) 0 recs).1).dropLast,
      c.length = mN) ∧
    ((sentBatches (clientLoop id (mN : Int) (fun _ => true) 0 recs).1).map
      List.length).sum = recs.length := by
  have hB : sentBatches (clientLoop id (mN : Int) (fun _ => true) 0 recs).1 =
      chunksPure mN (recs.map (mkBet id)) := by
    rw [clientLoop_true]
    rw [show (traceOf (mN : Int) (chunksAll id (mN : Int) recs), Outcome.finished).1 =
      traceOf (mN : Int) (chunksAll id (mN : Int) recs) from rfl]
    rw [sentBatches_traceOf, chunksAll_allOk id mN hm recs h5]
  rw [hB]
  refine ⟨?_, chunksPure_flatten mN hm _, chunksPure_dropLast_sizes mN hm _, ?_⟩
  · rw [chunksPure_length mN hm]
    simp
  · rw [← List.length_flatten, chunksPure_flatten mN hm]
    simp

theorem batching_partition_witness :
    (sentBatches (clientLoop ['1'] (2 : Int) (fun _ => true) 0
      [rec1, rec1, rec1, rec1, rec1]).1).length =
      ([rec1, rec1, rec1, rec1, rec1].length + 2 - 1) / 2 ∧
    ((sentBatches (clientLoop ['1'] (2 : Int) (fun _ => true) 0
      [rec1, rec1, rec1, rec1, rec1]).1).map List.length).sum =
      [rec1, rec1, rec1, rec1, rec1].length := by
  have h := batching_partition ['1'] 2 [rec1, rec1, rec1, rec1, rec1]
    (by decide) (by decide) (by decide)
  exact ⟨h.1, h.2.2.2⟩

/-- Claim C4, counterexample.  The claim says the client never sleeps
after the final envelope, independent of envelope size.  With 3
well-formed records and batch size 3 there is a single (final)
envelope, it is full-size, and the trace ends with the pacing sleep:
the loop sleeps exactly when `len(batch) == batchSize`, so a final
full-size envelope is followed by a sleep. -/
theorem pacing_sleeps_after_final_full_batch :
    clientLoop ['1'] (3 : Int) (fun _ => true) 0 [rec1, rec1, rec1] =
      ([Ev.send [mkBet ['1'] rec1, mkBet ['1'] rec1, mkBet ['1'] rec1], Ev.sleep],
        Outcome.finished) := by
  simp [clientLoop, readNextBatch, rec1]

/-- Claim C4, amended — the client sleeps after an envelope exactly when
the envelope is full-size (`len(batch) == batchSize`, the condition in
`traceOf`): that is after every non-final envelope (they are all full),
and also after the final envelope when `m` divides `n`.  In particular
for 7 records and batch size 3 the envelopes have sizes [3,3,1] and the
sleep runs after envelopes 1 and 2 but not after 3. -/
theorem pacing_iff_full_batch (id : Str) (mN : Nat) (recs : List (List Str))
    (hm : 0 < mN) (h5 : ∀ r ∈ recs, r.length = 5) :
    clientLoop id (mN : Int) (fun _ => true) 0 recs =
      (traceOf (mN : Int) (chunksPure mN (recs.map (mkBet id))), Outcome.finished) ∧
    ∀ c ∈ (chunksPure mN (recs.map (mkBet id))).dropLast, c.length = mN := by
  refine ⟨?_, chunksPure_dropLast_sizes mN hm _⟩
  rw [clientLoop_true, chunksAll_allOk id mN hm recs h5]

theorem pacing_iff_full_batch_witness :
    clientLoop ['1'] (3 : Int) (fun _ => true) 0
      [rec1, rec1, rec1, rec1, rec1, rec1, rec1] =
      (traceOf (3 : Int) (chunksPure 3
        ([rec1, rec1, rec1, rec1, rec1, rec1, rec1].map (mkBet ['1']))),
        Outcome.finished) ∧
    (chunksPure 3 ([rec1, rec1, rec1, rec1, rec1, rec1, rec1].map
      (mkBet ['1']))).map List.length = [3, 3, 1] := by
  constructor
  · exact (pacing_iff_full_batch ['1'] 3 [rec1, rec1, rec1, rec1, rec1, rec1, rec1]
      (by decide) (by decide)).1
  · simp [chunksPure, rec1]

/-- Claim C5, counterexample.  The claim says batching fails with
`InvalidConfig` when `max_size ≤ 0`.  The code has no such error: with
`batchSize = 0` and a well-formed record available, `readNextBatch`
returns an empty batch at once, the loop breaks, sends nothing, and
logs `loop_finished` — the session ends successfully instead of
failing. -/
theorem nonpositive_batch_size_no_error :
    clientLoop ['1'] (0 : Int) (fun _ => true) 0 [rec1] = ([], Outcome.finished) := by
  rw [clientLoop.eq_def]
  simp [readNextBatch]

/-- Claim C5, amended — with `max_size ≤ 0` the client does not fail:
the read loop body never runs, so the session sends nothing, produces
no event, and terminates normally, for any network and any input. -/
theorem nonpositive_batch_size_silent (id : Str) (m : Int) (hm : m ≤ 0)
    (env : Nat → Bool) (a : Nat) (recs : List (List Str)) :
    clientLoop id m env a recs = ([], Outcome.finished) := by
  rw [clientLoop.eq_def]
  simp [readNextBatch_nonpos id m hm recs]

theorem nonpositive_batch_size_silent_witness :
    clientLoop ['1'] (-1 : Int) (fun _ => true) 0 [rec1] = ([], Outcome.finished) :=
  nonpositive_batch_size_silent ['1'] (-1) (by decide) (fun _ => true) 0 [rec1]

/-- Claim C6 — `SerializeBatch` of `n > 0` bets is the header
`BATCH#<n>\n` followed by exactly the `n` `SerializeBet` lines in input
order; of the empty list it is the empty string; and the client loop
never transmits an empty batch. -/
theorem serializeBatch_shape :
    (∀ bets : List Bet, bets ≠ [] →
      SerializeBatch bets = "BATCH#".data ++ natChars bets.length ++ "\n".data ++
        (bets.map SerializeBet).flatten ∧
      (bets.map SerializeBet).length = bets.length) ∧
    SerializeBatch [] = [] ∧
    ∀ (id : Str) (m : Int) (env : Nat → Bool) (a : Nat) (recs : List (List Str)),
      Ev.send [] ∉ (clientLoop id m env a recs).1 := by
  refine ⟨fun bets hb => ⟨?_, by simp⟩, rfl, clientLoop_send_ne_nil⟩
  simp [SerializeBatch, List.length_eq_zero, hb]

theorem serializeBatch_shape_witness :
    (SerializeBatch [mkBet ['1'] rec1] =
      "BATCH#".data ++ natChars [mkBet ['1'] rec1].length ++ "\n".data ++
        ([mkBet ['1'] rec1].map SerializeBet).flatten ∧
      ([mkBet ['1'] rec1].map SerializeBet).length = [mkBet ['1'] rec1].length) ∧
    Ev.send [] ∉ (clientLoop ['1'] (1 : Int) (fun _ => true) 0 [rec1]).1 :=
  ⟨serializeBatch_shape.1 [mkBet ['1'] rec1] (by decide),
   serializeBatch_shape.2.2 ['1'] 1 (fun _ => true) 0 [rec1]⟩

/-- Claim C7 — the write loop either writes the whole buffer (the partial
counts, in order, sum to the buffer length) or stops at the first
`Write` error and reports it, attempting no further write on the
connection (the oracle entries after the failing one are returned
unconsumed).  Hypotheses: the oracle respects the `io.Writer` contract
(a successful write returns at most the remaining byte count), and the
connection is live (every `Write` call returns, so the oracle does not
run out). -/
theorem sendAll_writes_all_or_stops (len : Nat) (oracle : List WriteRes)
    (hok : oracleOk len 0 oracle = true)
    (hlive : sendAll len 0 oracle ≠ SendRes.starved) :
    (∃ ws un, sendAll len 0 oracle = SendRes.complete ws un ∧
      ws.sum = len ∧ oracle = ws.map WriteRes.ok ++ un) ∨
    (∃ ws un, sendAll len 0 oracle = SendRes.ioError ws un ∧
      ws.sum < len ∧ oracle = ws.map WriteRes.ok ++ WriteRes.fail :: un) := by
  have h := sendAll_spec_aux len oracle 0 (Nat.zero_le _) hok
  rcases hres : sendAll len 0 oracle with ⟨ws, un⟩ | ⟨ws, un⟩ | _
  · left
    have h0 := h.1 ws un hres
    exact ⟨ws, un, rfl, by omega, h0.2⟩
  · right
    have h0 := h.2 ws un hres
    exact ⟨ws, un, rfl, by omega, h0.2⟩
  · exact absurd hres hlive

theorem sendAll_writes_all_or_stops_witness :
    (∃ ws un, sendAll 3 0 [WriteRes.ok 2, WriteRes.ok 1] = SendRes.complete ws un ∧
      ws.sum = 3 ∧ [WriteRes.ok 2, WriteRes.ok 1] = ws.map WriteRes.ok ++ un) ∨
    (∃ ws un, sendAll 3 0 [WriteRes.ok 2, WriteRes.ok 1] = SendRes.ioError ws un ∧
      ws.sum < 3 ∧ [WriteRes.ok 2, WriteRes.ok 1] =
        ws.map WriteRes.ok ++ WriteRes.fail :: un) :=
  sendAll_writes_all_or_stops 3 [WriteRes.ok 2, WriteRes.ok 1] (by decide) (by decide)

/-- Claim C8 — a row with the wrong arity is skipped and reading
continues with the next row: removing the wrong-arity rows from the
input changes neither the batch `readNextBatch` returns nor anything
about the session (same events, same outcome) — so such a row never
contributes a bet to any batch and never makes the session fail. -/
theorem malformed_rows_skipped (id : Str) (m : Int) (env : Nat → Bool) (a : Nat)
    (recs : List (List Str)) :
    readNextBatch id m 0 (recs.filter fun r => decide (r.length = 5)) =
      ((readNextBatch id m 0 recs).1,
       (readNextBatch id m 0 recs).2.filter fun r => decide (r.length = 5)) ∧
    clientLoop id m env a (recs.filter fun r => decide (r.length = 5)) =
      clientLoop id m env a recs :=
  ⟨readNextBatch_skip id m 0 recs, clientLoop_skip id m env a recs⟩

/-- Claim C9 — for an accepted 5-field row, `FirstName` is the first
space-separated token of column 0 and `LastName` is the remaining
tokens of column 0 joined with spaces, then a single space, then
column 1; when column 0 contains no space the remaining tokens are
empty and `LastName` begins with a space character. -/
theorem bet_name_fields (id c0 c1 c2 c3 c4 : Str) :
    (mkBet id [c0, c1, c2, c3, c4]).FirstName = (splitSp c0).headD [] ∧
    (mkBet id [c0, c1, c2, c3, c4]).LastName = joinSp (splitSp c0).tail ++ ' ' :: c1 ∧
    (' ' ∉ c0 → (mkBet id [c0, c1, c2, c3, c4]).LastName = ' ' :: c1) := by
  refine ⟨rfl, rfl, fun h => ?_⟩
  show joinSp (splitSp c0).tail ++ ' ' :: c1 = ' ' :: c1
  rw [splitSp_no_space c0 h]
  rfl

theorem bet_name_fields_witness :
    (mkBet ['9'] [['J', 'o'], ['P', 'e'], ['d'], ['b'], ['n']]).LastName =
      ' ' :: ['P', 'e'] :=
  (bet_name_fields ['9'] ['J', 'o'] ['P', 'e'] ['d'] ['b'] ['n']).2.2 (by decide)

/-- Claim C10 — every bet the client constructs carries the configured
client ID as its agency, in the per-bet variant (`v1Bet`) and in every
batch any run of the batch loop transmits; no input row can influence
it. -/
theorem agency_from_config (id : Str) :
    (∀ firstName lastName document birthdate number : Str,
      (v1Bet id firstName lastName document birthdate number).Agency = id) ∧
    ∀ (m : Int) (env : Nat → Bool) (a : Nat) (recs : List (List Str)),
      ∀ batch ∈ sentBatches (clientLoop id m env a recs).1, ∀ b ∈ batch,
        b.Agency = id :=
  ⟨fun _ _ _ _ _ => rfl, fun m env a recs => clientLoop_agency id m env a recs⟩

theorem agency_from_config_witness :
    (v1Bet ['2'] ['f'] ['l'] ['d'] ['b'] ['n']).Agency = ['2'] ∧
    (mkBet ['1'] rec1).Agency = ['1'] := by
  constructor
  · exact (agency_from_config ['2']).1 ['f'] ['l'] ['d'] ['b'] ['n']
  · have hmem : [mkBet ['1'] rec1] ∈
        sentBatches (clientLoop ['1'] (1 : Int) (fun _ => true) 0 [rec1]).1 := by
      simp [clientLoop, readNextBatch, sentBatches, rec1]
    exact (agency_from_config ['1']).2 1 (fun _ => true) 0 [rec1]
      [mkBet ['1'] rec1] hmem (mkBet ['1'] rec1) (List.mem_cons_self _ _)
